import Mathlib

/-!
A verification development for the review-vectorizer batch pipeline.

The Go sources are shallowly embedded as pure Lean functions:

* Go strings are `List Char` (`GoString`), with `goLen` computing the
  UTF-8 byte length that Go's `len` returns.
* Go errors produced with `fmt.Errorf("...: %w", err)` are the
  `GoErr.wrap` constructor; plain `fmt.Errorf`/`errors.New` messages are
  `GoErr.msg`.
* Network I/O (one HTTP embeddings request) is an oracle parameter
  `net : Nat → List GoString → Except GoErr (List Vec)` mapping the
  retry-attempt index and the submitted texts to the decoded response.
* The relational store is a list of rows threaded through the pipeline;
  `time.Now`/`uuid.New` results are opaque and carried nowhere a claim
  looks (the corresponding struct fields are omitted).
* `float32` values are `Float`; no theorem inspects a float value, only
  the shapes and placement of vectors.
-/

namespace RV

/-- Go's error values: `msg` is a leaf error message, `wrap` is
`fmt.Errorf("context: %w", inner)`. -/
inductive GoErr where
  | msg (s : String) : GoErr
  | wrap (context : String) (inner : GoErr) : GoErr
deriving Repr, DecidableEq

/-- A Go string, as its sequence of runes. -/
abbrev GoString := List Char

/-- Embed a Lean string literal as a `GoString`. -/
def gs (s : String) : GoString := s.data

/-- An embedding vector (`[]float32` in the source). -/
abbrev Vec := List Float

/-- Number of bytes of the UTF-8 encoding of one rune, as counted by
Go's built-in `len` on a string. -/
def utf8Bytes (c : Char) : Nat :=
  if c.toNat < 0x80 then 1
  else if c.toNat < 0x800 then 2
  else if c.toNat < 0x10000 then 3
  else 4

/-- Go `len(s)`: the UTF-8 byte length of the string. -/
def goLen (s : GoString) : Nat := (s.map utf8Bytes).sum

/-- Go `unicode.IsSpace`: ASCII whitespace, NEL, NBSP and the
White_Space code points in the Latin-1 supplement and beyond. -/
def goIsSpace (c : Char) : Bool :=
  c.toNat = 9 || c.toNat = 10 || c.toNat = 11 || c.toNat = 12 ||
  c.toNat = 13 || c.toNat = 32 || c.toNat = 0x85 || c.toNat = 0xA0 ||
  c.toNat = 0x1680 || (0x2000 ≤ c.toNat && c.toNat ≤ 0x200A) ||
  c.toNat = 0x2028 || c.toNat = 0x2029 || c.toNat = 0x202F ||
  c.toNat = 0x205F || c.toNat = 0x3000

/-- Go `strings.TrimSpace`: drop leading and trailing whitespace. -/
def trimSpace (s : GoString) : GoString :=
  ((s.dropWhile goIsSpace).reverse.dropWhile goIsSpace).reverse

/-- Accumulator worker for `fields`: `acc` holds the reversed current
word. -/
def fieldsAux : GoString → GoString → List GoString
  | [], acc => if acc = [] then [] else [acc.reverse]
  | c :: rest, acc =>
      if goIsSpace c then
        if acc = [] then fieldsAux rest []
        else acc.reverse :: fieldsAux rest []
      else fieldsAux rest (c :: acc)

/-- Go `strings.Fields`: split around runs of whitespace. -/
def fields (s : GoString) : List GoString := fieldsAux s []

/-- Go `strings.Join(ws, " ")`: empty for no words, the single word
alone, otherwise the words with one space between consecutive words. -/
def joinSpace : List GoString → GoString
  | [] => []
  | [w] => w
  | w :: ws => w ++ ' ' :: joinSpace ws

/-- `strings.Join(strings.Fields(strings.TrimSpace(s)), " ")` — the
normalization performed by `preprocessText` before its length check. -/
def normalizeWS (s : GoString) : GoString :=
  joinSpace (fields (trimSpace s))

/-- `preprocessText` (embedder.go): trim, collapse internal whitespace,
and reject anything whose byte length is below 3 by returning `""`. -/
def preprocessText (text : GoString) : GoString :=
  let t := trimSpace text
  let t := joinSpace (fields t)
  if goLen t < 3 then [] else t

/-- The batch-slicing loop `for i := 0; i < len(l); i += B` shared by
`processReviewsInBatches` (B = configured sub-batch size) and
`OpenAIClient.CreateEmbeddings` (B = 10): contiguous chunks of `l` of
size `B` (last one possibly shorter).  The Go loop does not terminate
for `B = 0`; the model returns `[]` there and every theorem assumes
`0 < B`. -/
def chunksOfAux (B : Nat) : Nat → List α → List (List α)
  | _, [] => []
  | 0, _ :: _ => []
  | fuel + 1, x :: xs =>
      if B = 0 then []
      else (x :: xs).take B :: chunksOfAux B fuel ((x :: xs).drop B)

/-- `chunksOf B l`: the slicing loop, with its recursion paced by a
fuel of `l.length` (shown sufficient by `chunksOfAux_fuel`) so that it
stays structurally recursive and kernel-computable. -/
def chunksOf (B : Nat) (l : List α) : List (List α) :=
  chunksOfAux B l.length l

/-- Any two sufficient fuels give the same chunks. -/
theorem chunksOfAux_fuel (B : Nat) (hB : 0 < B) :
    ∀ (n f1 f2 : Nat) (l : List α), l.length ≤ n →
      l.length ≤ f1 → l.length ≤ f2 →
      chunksOfAux B f1 l = chunksOfAux B f2 l := by
  intro n
  induction n with
  | zero =>
      intro f1 f2 l hl _ _
      have hnil : l = [] := List.eq_nil_of_length_eq_zero (Nat.le_zero.mp hl)
      subst hnil
      cases f1 <;> cases f2 <;> rfl
  | succ n ih =>
      intro f1 f2 l hl h1 h2
      cases l with
      | nil => cases f1 <;> cases f2 <;> rfl
      | cons x xs =>
          simp only [List.length_cons] at hl h1 h2
          obtain ⟨g1, rfl⟩ : ∃ g, f1 = g + 1 := ⟨f1 - 1, by omega⟩
          obtain ⟨g2, rfl⟩ : ∃ g, f2 = g + 1 := ⟨f2 - 1, by omega⟩
          simp only [chunksOfAux]
          have hB0 : ¬B = 0 := Nat.pos_iff_ne_zero.mp hB
          rw [if_neg hB0, if_neg hB0]
          congr 1
          apply ih
          · simp only [List.length_drop, List.length_cons]; omega
          · simp only [List.length_drop, List.length_cons]; omega
          · simp only [List.length_drop, List.length_cons]; omega

theorem chunksOf_nil (B : Nat) : chunksOf B ([] : List α) = [] := rfl

theorem chunksOf_cons (B : Nat) (hB : 0 < B) (l : List α) (hl : l ≠ []) :
    chunksOf B l = l.take B :: chunksOf B (l.drop B) := by
  cases l with
  | nil => exact absurd rfl hl
  | cons x xs =>
      show chunksOfAux B (xs.length + 1) (x :: xs) = _
      simp only [chunksOfAux]
      rw [if_neg (Nat.pos_iff_ne_zero.mp hB)]
      congr 1
      apply chunksOfAux_fuel B hB xs.length
      · simp only [List.length_drop, List.length_cons]; omega
      · simp only [List.length_drop, List.length_cons]; omega
      · exact Nat.le_refl _

/-- The chunks concatenate back to the original list. -/
theorem chunksOf_flatten (B : Nat) (hB : 0 < B) (l : List α) :
    (chunksOf B l).flatten = l := by
  generalize hn : l.length = n
  induction n using Nat.strong_induction_on generalizing l with
  | _ n ih =>
    by_cases hl : l = []
    · subst hl; simp [chunksOf_nil]
    · rw [chunksOf_cons B hB l hl]
      have hlen : 0 < l.length := List.length_pos.mpr hl
      have hdrop : (l.drop B).length < n := by
        simp only [List.length_drop]; omega
      rw [List.flatten_cons, ih _ (hn ▸ hdrop) _ rfl, List.take_append_drop]

/-- The chunk sizes sum to the original length. -/
theorem chunksOf_sum_length (B : Nat) (hB : 0 < B) (l : List α) :
    ((chunksOf B l).map List.length).sum = l.length := by
  have h := congrArg List.length (chunksOf_flatten B hB l)
  rwa [List.length_flatten] at h

/-- The number of chunks is `⌈length / B⌉`. -/
theorem chunksOf_length (B : Nat) (hB : 0 < B) (l : List α) :
    (chunksOf B l).length = (l.length + B - 1) / B := by
  generalize hn : l.length = n
  induction n using Nat.strong_induction_on generalizing l with
  | _ n ih =>
    by_cases hl : l = []
    · subst hl
      simp only [List.length_nil] at hn
      subst hn
      rw [chunksOf_nil]
      simp only [List.length_nil, Nat.zero_add]
      rw [Nat.div_eq_of_lt (by omega : B - 1 < B)]
    · rw [chunksOf_cons B hB l hl]
      have hlen : 0 < l.length := List.length_pos.mpr hl
      subst hn
      by_cases hsmall : l.length ≤ B
      · have hdropnil : l.drop B = [] := by
          apply List.eq_nil_of_length_eq_zero
          simp only [List.length_drop]; omega
        rw [hdropnil, chunksOf_nil]
        have h1 : (l.length + B - 1) / B = 1 := by
          apply Nat.div_eq_of_lt_le <;> omega
        simp [h1]
      · push_neg at hsmall
        have hdrop : (l.drop B).length = l.length - B := by
          simp only [List.length_drop]
        have hlt : l.length - B < l.length := by omega
        rw [List.length_cons, ih _ (hdrop ▸ hlt) _ hdrop]
        obtain ⟨m, hm⟩ : ∃ m, l.length = B + m := ⟨l.length - B, by omega⟩
        rw [hm]
        have h1 : B + m - B = m := by omega
        have h2 : B + m + B - 1 = (m + B - 1) + B := by omega
        rw [h1, h2, Nat.add_div_right _ hB]

/-- Chunk members are non-empty. -/
theorem chunksOf_mem_ne_nil (B : Nat) (hB : 0 < B) (l : List α)
    (c : List α) (hc : c ∈ chunksOf B l) : c ≠ [] := by
  generalize hn : l.length = n
  induction n using Nat.strong_induction_on generalizing l with
  | _ n ih =>
    by_cases hl : l = []
    · subst hl; rw [chunksOf_nil] at hc; exact absurd hc (List.not_mem_nil c)
    · rw [chunksOf_cons B hB l hl] at hc
      have hlen : 0 < l.length := List.length_pos.mpr hl
      rcases List.mem_cons.mp hc with h | h
      · subst h
        intro habs
        have := congrArg List.length habs
        simp only [List.length_take, List.length_nil] at this
        omega
      · have hdrop : (l.drop B).length < n := by
          simp only [List.length_drop]; omega
        exact ih _ (hn ▸ hdrop) _ h rfl

/-- An element of a chunk is an element of the original list. -/
theorem chunksOf_mem_mem (B : Nat) (hB : 0 < B) (l : List α)
    (c : List α) (hc : c ∈ chunksOf B l) (x : α) (hx : x ∈ c) : x ∈ l := by
  have h := chunksOf_flatten B hB l
  rw [← h]
  exact List.mem_flatten.mpr ⟨c, hc, hx⟩

/-!  ## OpenAI client (openai.go)

One network round-trip (`makeRequest` plus the decoding of the JSON
response into `[][]float32`) is the oracle
`call : Nat → Except GoErr (List Vec)`, indexed by the 0-based retry
attempt.  `OpenAIClient.processBatch` is the retry loop around it; the
model additionally counts how many attempts were made. -/

namespace OpenAIClient

/-- The body of `for attempt := 0; attempt <= maxRetries; attempt++`:
`remaining` is how many further attempts are allowed after the current
one.  Returns the loop's final `(resp, err)` outcome together with the
number of attempts performed. -/
def attemptLoop (call : Nat → Except GoErr (List Vec)) :
    Nat → Nat → Except GoErr (List Vec) × Nat
  | attempt, 0 => (call attempt, 1)
  | attempt, remaining + 1 =>
      match call attempt with
      | .ok v => (.ok v, 1)
      | .error _ =>
          let r := attemptLoop call (attempt + 1) remaining
          (r.1, r.2 + 1)

/-- `OpenAIClient.processBatch`: retry `makeRequest` up to
`maxRetries + 1` times; a success short-circuits; exhaustion wraps the
last error as `"all retry attempts failed: %w"`. -/
def processBatch (maxRetries : Nat)
    (call : Nat → Except GoErr (List Vec)) : Except GoErr (List Vec) :=
  match (attemptLoop call 0 maxRetries).1 with
  | .ok v => .ok v
  | .error e => .error (.wrap "all retry attempts failed" e)

/-- How many attempts the retry loop of `processBatch` performs. -/
def attemptsMade (maxRetries : Nat)
    (call : Nat → Except GoErr (List Vec)) : Nat :=
  (attemptLoop call 0 maxRetries).2

/-- The loop of `CreateEmbeddings` over the size-10 chunks: each chunk
is sent through the retried `processBatch`; the first failure aborts
with a `"failed to process batch %d-%d: %w"` wrap; successes are
concatenated in order. -/
def embedChunks (maxRetries : Nat)
    (net : Nat → List GoString → Except GoErr (List Vec)) :
    List (List GoString) → Except GoErr (List Vec)
  | [] => .ok []
  | c :: cs =>
      match processBatch maxRetries (fun a => net a c) with
      | .error e => .error (.wrap "failed to process batch" e)
      | .ok vs =>
          match embedChunks maxRetries net cs with
          | .error e => .error e
          | .ok rest => .ok (vs ++ rest)

/-- `OpenAIClient.CreateEmbeddings`: empty input returns `nil, nil`;
otherwise the texts are chunked at the fixed internal batch size 10 and
each chunk is embedded via the retried call. -/
def CreateEmbeddings (maxRetries : Nat)
    (net : Nat → List GoString → Except GoErr (List Vec))
    (texts : List GoString) : Except GoErr (List Vec) :=
  if texts = [] then .ok []
  else embedChunks maxRetries net (chunksOf 10 texts)

/-- Observation of the same control flow as `embedChunks`: the chunk
payloads actually handed to the network, in order (the loop stops
submitting after a failed chunk). -/
def sentChunks (maxRetries : Nat)
    (net : Nat → List GoString → Except GoErr (List Vec)) :
    List (List GoString) → List (List GoString)
  | [] => []
  | c :: cs =>
      c :: (match processBatch maxRetries (fun a => net a c) with
            | .error _ => []
            | .ok _ => sentChunks maxRetries net cs)

end OpenAIClient

/-!  ## Embedder variants (embedder.go) -/

namespace OpenAIEmbedder

/-- `OpenAIEmbedder.EmbedBatch`: empty input returns `nil, nil`; each
input is preprocessed and dropped when preprocessing rejects it; if
nothing survives, the typed "no valid inputs after preprocessing"
failure is returned without touching the network; otherwise the
surviving preprocessed texts go to `CreateEmbeddings`. -/
def EmbedBatch (maxRetries : Nat)
    (net : Nat → List GoString → Except GoErr (List Vec))
    (inputs : List GoString) : Except GoErr (List Vec) :=
  if inputs = [] then .ok []
  else
    let processed := inputs.filterMap fun t =>
      let p := preprocessText t
      if p = [] then none else some p
    if processed = [] then .error (.msg "no valid inputs after preprocessing")
    else
      match OpenAIClient.CreateEmbeddings maxRetries net processed with
      | .error e => .error (.wrap "failed to generate embeddings" e)
      | .ok vs => .ok vs

/-- The surviving preprocessed inputs (the `processedInputs` slice). -/
def processedInputs (inputs : List GoString) : List GoString :=
  inputs.filterMap fun t =>
    let p := preprocessText t
    if p = [] then none else some p

/-- The network payloads submitted by `EmbedBatch`, mirroring its
control flow. -/
def sentPayloads (maxRetries : Nat)
    (net : Nat → List GoString → Except GoErr (List Vec))
    (inputs : List GoString) : List (List GoString) :=
  if inputs = [] then []
  else
    let processed := processedInputs inputs
    if processed = [] then []
    else OpenAIClient.sentChunks maxRetries net (chunksOf 10 processed)

end OpenAIEmbedder

namespace StubEmbedder

/-- One stub vector: `dim` successive draws from the process-wide PRNG
stream `rand` (modelling `rand.Float64()`), each scaled by `0.01`.
`base` is the index of the first draw consumed by this vector. -/
def stubVector (dim : Nat) (rand : Nat → Float) (base : Nat) : Vec :=
  (List.range dim).map fun j => rand (base + j) * 0.01

/-- `StubEmbedder.EmbedBatch`: empty input returns `nil, nil`;
otherwise one `dim`-sized pseudo-random vector per input, never an
error. -/
def EmbedBatch (dim : Nat) (rand : Nat → Float)
    (inputs : List GoString) : Except GoErr (List Vec) :=
  if inputs = [] then .ok []
  else .ok ((List.range inputs.length).map fun i => stubVector dim rand (i * dim))

end StubEmbedder

/-!  ## Storage (models.go, postgres.go)

`CleanReview` and `Vector` mirror the Go structs.  The generated
`EmbeddingID` (uuid) and the `CreatedAt`/`UpdatedAt` wall-clock stamps
are opaque I/O values no claim inspects, so they are omitted from the
row model.  The `review_embeddings` table is a list of rows in insert
order; its `review_id UNIQUE` constraint is what
`ON CONFLICT (review_id) DO NOTHING` relies on. -/

structure CleanReview where
  id : String
  appId : String
  country : String
  rating : Int
  language : String
  contentClean : GoString
  contentEN : Option GoString
  responseContentClean : Option GoString
deriving Repr, DecidableEq

/-- A stored embedding row.  `responseVec = none` models a SQL `NULL`
(`nil` slice on the Go side). -/
structure Vector where
  reviewId : String
  appId : String
  language : String
  rating : Int
  country : String
  model : String
  dim : Nat
  contentVec : Vec
  responseVec : Option Vec
deriving Repr

abbrev Store := List Vector

/-- `UpsertEmbedding` (postgres.go): `INSERT ... ON CONFLICT
(review_id) DO NOTHING`.  A response vector is bound as SQL `NULL`
unless `len(vector.ResponseVec) > 0`.  The row is appended only when no
row with the same `review_id` exists; otherwise the store is returned
unchanged. -/
def UpsertEmbedding (v : Vector) (store : Store) : Store :=
  let row := { v with responseVec :=
    match v.responseVec with
    | some w => if 0 < w.length then some w else none
    | none => none }
  if store.any (fun r => r.reviewId = v.reviewId) then store
  else store ++ [row]

/-- The `LEFT JOIN review_embeddings re ON re.review_id = cr.id` with
`re.review_id IS NULL`: the rows of `db` that have no stored embedding
row yet.  Filtering preserves the `reviewed_at DESC` order of `db`. -/
def eligibleRows (db : List CleanReview) (store : Store) :
    List CleanReview :=
  db.filter fun r => !store.any fun v => v.reviewId = r.id

/-- `GetCleanReviewsForVectorization` (postgres.go): a
`LIMIT limit OFFSET offset` window over the eligible rows.  `db` is
the `clean_reviews` rows matching the static `WHERE` conditions
(contentful, non-null text, request filters) in `reviewed_at DESC`
order — a table this service never writes, so fixed for the run.  With
`ForceRecompute` set the `re.review_id IS NULL` disjunct is disabled
(`... OR $1::bool = true`) and every row of `db` stays eligible;
without it, rows gain a `review_embeddings` row as the run stores them
and drop out of later windows, which `store` captures. -/
def GetCleanReviewsForVectorization (force : Bool)
    (db : List CleanReview) (store : Store) (limit offset : Nat) :
    List CleanReview :=
  ((if force then db else eligibleRows db store).drop offset).take limit

/-!  ## Vectorize service (vectorize.go, paginated variant)

The service's `Embedder` interface is the function parameter
`embed : List GoString → Except GoErr (List Vec)`. -/

/-- The `Vectorizer` section of the configuration. -/
structure VectorizerConfig where
  batchSize : Nat
  maxVectorLength : Nat
  model : String
deriving Repr, DecidableEq

structure VectorizeResult where
  processed : Nat
  skipped : Nat
  failed : Nat
  reviewIds : List String
deriving Repr, DecidableEq

namespace VectorizeResult

def empty : VectorizeResult := ⟨0, 0, 0, []⟩

/-- The `result.X += batchResult.X` accumulation. -/
def add (a b : VectorizeResult) : VectorizeResult :=
  ⟨a.processed + b.processed, a.skipped + b.skipped,
   a.failed + b.failed, a.reviewIds ++ b.reviewIds⟩

end VectorizeResult

namespace VectorizeService

/-- `prepareTexts`: content texts are taken as-is; a response text is
carried when the pointer is non-nil and the string non-empty, else the
empty string keeps the slot. -/
def prepareTexts (reviews : List CleanReview) :
    List GoString × List GoString :=
  (reviews.map (·.contentClean),
   reviews.map fun r =>
     match r.responseContentClean with
     | some s => if s = [] then [] else s
     | none => [])

/-- `filterNonEmptyResponses`. -/
def filterNonEmptyResponses (responseTexts : List GoString) :
    List GoString :=
  responseTexts.filter (· ≠ [])

/-- `generateEmbeddings`: content vectors are mandatory (their failure
propagates); response vectors are attempted only when some response
text is non-empty, and their failure leaves `responseVectors = nil`
(`none`). -/
def generateEmbeddings (embed : List GoString → Except GoErr (List Vec))
    (contentTexts responseTexts : List GoString) :
    Except GoErr (List Vec × Option (List Vec)) :=
  match embed contentTexts with
  | .error e => .error (.wrap "failed to generate content embeddings" e)
  | .ok contentVectors =>
      let nonEmptyResponses := filterNonEmptyResponses responseTexts
      let responseVectors :=
        if nonEmptyResponses = [] then none
        else (embed nonEmptyResponses).toOption
      .ok (contentVectors, responseVectors)

/-- `createVector`: build the row for `reviews[index]`.  The response
vector is attached when `responseVectors != nil && index <
len(responseVectors)`, that is `responseVectors[index]?` — the index
into the full sub-batch, not into the response subset. -/
def createVector (cfg : VectorizerConfig) (review : CleanReview)
    (contentVec : Vec) (responseVectors : Option (List Vec))
    (index : Nat) : Vector :=
  { reviewId := review.id
    appId := review.appId
    language := review.language
    rating := review.rating
    country := review.country
    model := cfg.model
    dim := cfg.maxVectorLength
    contentVec := contentVec
    responseVec :=
      match responseVectors with
      | some rvs => rvs.get? index
      | none => none }

/-- The loop body of `storeVectors` from position `index` on.  In the
model the store is always reachable, so the per-record error branch
(`result.Failed++`) is never taken; `contentVectors[index]` is total in
Go only when `len(contentVectors) ≥ len(reviews)` (otherwise the Go
code panics — no settled claim evaluates that configuration). -/
def storeVectorsLoop (cfg : VectorizerConfig)
    (contentVectors : List Vec) (responseVectors : Option (List Vec)) :
    List CleanReview → Nat → VectorizeResult → Store →
    VectorizeResult × Store
  | [], _, result, store => (result, store)
  | review :: rest, index, result, store =>
      let vector := createVector cfg review
        ((contentVectors.get? index).getD []) responseVectors index
      let store' := UpsertEmbedding vector store
      let result' := { result with
        processed := result.processed + 1,
        reviewIds := result.reviewIds ++ [review.id] }
      storeVectorsLoop cfg contentVectors responseVectors
        rest (index + 1) result' store'

/-- `storeVectors`. -/
def storeVectors (cfg : VectorizerConfig) (reviews : List CleanReview)
    (contentVectors : List Vec) (responseVectors : Option (List Vec))
    (store : Store) : VectorizeResult × Store :=
  storeVectorsLoop cfg contentVectors responseVectors reviews 0
    VectorizeResult.empty store

/-- `processBatch`: one sub-batch end to end. -/
def processBatch (embed : List GoString → Except GoErr (List Vec))
    (cfg : VectorizerConfig) (reviews : List CleanReview)
    (store : Store) : Except GoErr (VectorizeResult × Store) :=
  if reviews = [] then .ok (VectorizeResult.empty, store)
  else
    let (contentTexts, responseTexts) := prepareTexts reviews
    if contentTexts = [] then .ok (VectorizeResult.empty, store)
    else
      match generateEmbeddings embed contentTexts responseTexts with
      | .error e => .error e
      | .ok (contentVectors, responseVectors) =>
          .ok (storeVectors cfg reviews contentVectors responseVectors store)

/-- The body of the sub-batch loop in `processReviewsInBatches`: a
failed sub-batch adds its full size to `Failed` and is skipped
(`continue`); a successful one merges its counters and keeps the
updated store. -/
def batchStep (embed : List GoString → Except GoErr (List Vec))
    (cfg : VectorizerConfig) (acc : VectorizeResult × Store)
    (batch : List CleanReview) : VectorizeResult × Store :=
  match processBatch embed cfg batch acc.2 with
  | .error _ => ({ acc.1 with failed := acc.1.failed + batch.length }, acc.2)
  | .ok (batchResult, store') => (acc.1.add batchResult, store')

/-- `processReviewsInBatches`: slice the page at the configured
sub-batch size and fold `batchStep` over the slices. -/
def processReviewsInBatches
    (embed : List GoString → Except GoErr (List Vec))
    (cfg : VectorizerConfig) (reviews : List CleanReview)
    (store : Store) : VectorizeResult × Store :=
  (chunksOf cfg.batchSize reviews).foldl (batchStep embed cfg)
    (VectorizeResult.empty, store)

end VectorizeService

/-- What one run of the pagination driver produces: the accumulated
counters, the final store, the run's error (`some "context canceled"`
inside `GoErr.msg` when cancellation stopped it), and — as an
observation of the control flow — how many page fetches were issued. -/
structure PagesOutcome where
  result : VectorizeResult
  store : Store
  err : Option GoErr
  fetches : Nat
deriving Repr

namespace VectorizeService

/-- The `for { ... }` of `processAllReviews`, written over a STABLE
eligible set: `remaining` stands for `eligible.drop offset`, each
iteration's fetch is `remaining.take batchSize` and
`offset += batchSize` is `remaining.drop batchSize`.  This is the
driver's behaviour when `ForceRecompute` is set, where the run's own
writes do not change eligibility; `pagesLoopFAux_force` below proves it
equal to the force-recompute instance of the general force-aware
driver `pagesLoopFAux`, whose fetch re-evaluates eligibility against
the current store.  In iteration order: an empty page stops
the run; a page is processed through `processReviewsInBatches`; a short
page stops the run after processing; then `ctx.Done()` is polled
(`cancelled pageIdx`) and, when signalled, the loop returns the result
accumulated so far together with `ctx.Err()`. -/
def pagesLoopAux (embed : List GoString → Except GoErr (List Vec))
    (cfg : VectorizerConfig) (cancelled : Nat → Bool) (batchSize : Nat) :
    Nat → Nat → VectorizeResult → Store → List CleanReview → PagesOutcome
  | 0, _, acc, store, _ => ⟨acc, store, none, 0⟩
  | fuel + 1, pageIdx, acc, store, remaining =>
      let reviews := remaining.take batchSize
      if reviews = [] then ⟨acc, store, none, 1⟩
      else
        let pr := processReviewsInBatches embed cfg reviews store
        let acc' := acc.add pr.1
        if reviews.length < batchSize then ⟨acc', pr.2, none, 1⟩
        else if cancelled pageIdx then
          ⟨acc', pr.2, some (.msg "context canceled"), 1⟩
        else
          let o := pagesLoopAux embed cfg cancelled batchSize fuel
            (pageIdx + 1) acc' pr.2 (remaining.drop batchSize)
          ⟨o.result, o.store, o.err, o.fetches + 1⟩

/-- The page loop, with its recursion paced by a fuel of
`remaining.length + 1` (shown sufficient by `pagesLoopAux_fuel`): each
continuing iteration consumed a full non-empty page, so at most
`remaining.length + 1` iterations happen. -/
def pagesLoop (embed : List GoString → Except GoErr (List Vec))
    (cfg : VectorizerConfig) (cancelled : Nat → Bool) (batchSize : Nat)
    (pageIdx : Nat) (acc : VectorizeResult) (store : Store)
    (remaining : List CleanReview) : PagesOutcome :=
  pagesLoopAux embed cfg cancelled batchSize (remaining.length + 1)
    pageIdx acc store remaining

/-- Any two sufficient fuels give the same page-loop outcome. -/
theorem pagesLoopAux_fuel (embed : List GoString → Except GoErr (List Vec))
    (cfg : VectorizerConfig) (cancelled : Nat → Bool) (batchSize : Nat) :
    ∀ (n f1 f2 pageIdx : Nat) (acc : VectorizeResult) (store : Store)
      (remaining : List CleanReview), remaining.length ≤ n →
      remaining.length < f1 → remaining.length < f2 →
      pagesLoopAux embed cfg cancelled batchSize f1 pageIdx acc store
          remaining =
        pagesLoopAux embed cfg cancelled batchSize f2 pageIdx acc store
          remaining := by
  intro n
  induction n with
  | zero =>
      intro f1 f2 pageIdx acc store remaining hl h1 h2
      have hnil : remaining = [] :=
        List.eq_nil_of_length_eq_zero (Nat.le_zero.mp hl)
      subst hnil
      obtain ⟨g1, rfl⟩ : ∃ g, f1 = g + 1 := ⟨f1 - 1, by omega⟩
      obtain ⟨g2, rfl⟩ : ∃ g, f2 = g + 1 := ⟨f2 - 1, by omega⟩
      simp [pagesLoopAux]
  | succ n ih =>
      intro f1 f2 pageIdx acc store remaining hl h1 h2
      obtain ⟨g1, rfl⟩ : ∃ g, f1 = g + 1 := ⟨f1 - 1, by omega⟩
      obtain ⟨g2, rfl⟩ : ∃ g, f2 = g + 1 := ⟨f2 - 1, by omega⟩
      simp only [pagesLoopAux]
      by_cases hrev : remaining.take batchSize = []
      · rw [if_pos hrev, if_pos hrev]
      · rw [if_neg hrev, if_neg hrev]
        have hbs : batchSize ≠ 0 := by
          intro habs
          exact hrev (by rw [habs, List.take_zero])
        have hrem : remaining ≠ [] := by
          intro habs
          exact hrev (by rw [habs, List.take_nil])
        have hlen : 0 < remaining.length := List.length_pos.mpr hrem
        by_cases hshort : (remaining.take batchSize).length < batchSize
        · rw [if_pos hshort, if_pos hshort]
        · rw [if_neg hshort, if_neg hshort]
          by_cases hcanc : cancelled pageIdx
          · rw [if_pos hcanc, if_pos hcanc]
          · rw [if_neg hcanc, if_neg hcanc]
            have hrec := ih g1 g2 (pageIdx + 1)
              (acc.add (processReviewsInBatches embed cfg
                (remaining.take batchSize) store).1)
              (processReviewsInBatches embed cfg
                (remaining.take batchSize) store).2
              (remaining.drop batchSize)
              (by simp only [List.length_drop]; omega)
              (by simp only [List.length_drop]; omega)
              (by simp only [List.length_drop]; omega)
            rw [hrec]

/-- One-step unfolding of `pagesLoop`. -/
theorem pagesLoop_eq (embed : List GoString → Except GoErr (List Vec))
    (cfg : VectorizerConfig) (cancelled : Nat → Bool) (batchSize : Nat)
    (pageIdx : Nat) (acc : VectorizeResult) (store : Store)
    (remaining : List CleanReview) :
    pagesLoop embed cfg cancelled batchSize pageIdx acc store remaining =
      (let reviews := remaining.take batchSize
       if reviews = [] then ⟨acc, store, none, 1⟩
       else
         let pr := processReviewsInBatches embed cfg reviews store
         let acc' := acc.add pr.1
         if reviews.length < batchSize then ⟨acc', pr.2, none, 1⟩
         else if cancelled pageIdx then
           ⟨acc', pr.2, some (.msg "context canceled"), 1⟩
         else
           let o := pagesLoop embed cfg cancelled batchSize
             (pageIdx + 1) acc' pr.2 (remaining.drop batchSize)
           ⟨o.result, o.store, o.err, o.fetches + 1⟩ : PagesOutcome) := by
  show pagesLoopAux embed cfg cancelled batchSize (remaining.length + 1)
      pageIdx acc store remaining = _
  simp only [pagesLoopAux]
  by_cases hrev : remaining.take batchSize = []
  · simp [hrev]
  · have hbs : batchSize ≠ 0 := by
      intro habs
      exact hrev (by rw [habs, List.take_zero])
    have hrem : remaining ≠ [] := by
      intro habs
      exact hrev (by rw [habs, List.take_nil])
    have hlen : 0 < remaining.length := List.length_pos.mpr hrem
    simp only [if_neg hrev]
    by_cases hshort : (remaining.take batchSize).length < batchSize
    · simp only [if_pos hshort]
    · simp only [if_neg hshort]
      by_cases hcanc : cancelled pageIdx
      · simp only [hcanc, if_pos]
      · simp only [hcanc, Bool.false_eq_true, if_false]
        have hrec := pagesLoopAux_fuel embed cfg cancelled batchSize
          remaining.length remaining.length ((remaining.drop batchSize).length + 1)
          (pageIdx + 1)
          (acc.add (processReviewsInBatches embed cfg
            (remaining.take batchSize) store).1)
          (processReviewsInBatches embed cfg
            (remaining.take batchSize) store).2
          (remaining.drop batchSize)
          (by simp only [List.length_drop]; omega)
          (by simp only [List.length_drop]; omega)
          (by simp only [List.length_drop]; omega)
        rw [hrec]
        rfl

/-- `processAllReviews` over a stable eligible set `db` (the
`ForceRecompute` behaviour; see `processAllReviewsF` for the general
force-aware driver and `processAllReviewsF_force_eq` for the
equivalence): run the page loop from offset 0 with empty counters.
Fetch errors (store unreachable) are not modelled. -/
def processAllReviews (embed : List GoString → Except GoErr (List Vec))
    (cfg : VectorizerConfig) (cancelled : Nat → Bool)
    (db : List CleanReview) (batchSize : Nat) (store : Store) :
    PagesOutcome :=
  pagesLoop embed cfg cancelled batchSize 0 VectorizeResult.empty store db

/-- `determineBatchSize`: a positive explicit limit overrides the
configured batch size. -/
def determineBatchSize (limit : Int) (cfg : VectorizerConfig) : Nat :=
  if 0 < limit then limit.toNat else cfg.batchSize

/-- `RunOnce`: on any error from `processAllReviews` the accumulated
result is dropped and `VectorizeResult{}` is returned beside the
wrapped error (`"failed to process reviews: %w"`); the store keeps
whatever was already written. -/
def RunOnce (embed : List GoString → Except GoErr (List Vec))
    (cfg : VectorizerConfig) (cancelled : Nat → Bool)
    (db : List CleanReview) (limit : Int) (store : Store) :
    PagesOutcome :=
  let batchSize := determineBatchSize limit cfg
  let o := processAllReviews embed cfg cancelled db batchSize store
  match o.err with
  | some e =>
      ⟨VectorizeResult.empty, o.store,
       some (.wrap "failed to process reviews" e), o.fetches⟩
  | none => ⟨o.result, o.store, none, o.fetches⟩

/-- The `for { ... }` of `processAllReviews` in full: each iteration
fetches `GetCleanReviewsForVectorization force db store batchSize
offset` against the CURRENT store, so that with `force = false` rows
stored by earlier pages drop out of later windows while the offset
still advances.  Branch order and bodies are as in `pagesLoopAux`. -/
def pagesLoopFAux (embed : List GoString → Except GoErr (List Vec))
    (cfg : VectorizerConfig) (cancelled : Nat → Bool) (batchSize : Nat)
    (force : Bool) (db : List CleanReview) :
    Nat → Nat → Nat → VectorizeResult → Store → PagesOutcome
  | 0, _, _, acc, store => ⟨acc, store, none, 0⟩
  | fuel + 1, pageIdx, offset, acc, store =>
      let reviews :=
        GetCleanReviewsForVectorization force db store batchSize offset
      if reviews = [] then ⟨acc, store, none, 1⟩
      else
        let pr := processReviewsInBatches embed cfg reviews store
        let acc' := acc.add pr.1
        if reviews.length < batchSize then ⟨acc', pr.2, none, 1⟩
        else if cancelled pageIdx then
          ⟨acc', pr.2, some (.msg "context canceled"), 1⟩
        else
          let o := pagesLoopFAux embed cfg cancelled batchSize force db
            fuel (pageIdx + 1) (offset + batchSize) acc' pr.2
          ⟨o.result, o.store, o.err, o.fetches + 1⟩

/-- The force-aware `processAllReviews`: the page loop from offset 0
with empty counters, fetching against the current store each
iteration.  A fuel of `db.length + 1` paces the recursion: a
continuing iteration means a full page of `batchSize ≥ 1` rows fitted
at `offset` inside the eligible rows (at most `db.length` of them), so
the offset, growing by `batchSize` per iteration, allows at most
`db.length / batchSize + 1 ≤ db.length + 1` iterations before an empty
or short page stops the loop. -/
def processAllReviewsF (embed : List GoString → Except GoErr (List Vec))
    (cfg : VectorizerConfig) (cancelled : Nat → Bool) (force : Bool)
    (db : List CleanReview) (batchSize : Nat) (store : Store) :
    PagesOutcome :=
  pagesLoopFAux embed cfg cancelled batchSize force db (db.length + 1)
    0 0 VectorizeResult.empty store

/-- With `ForceRecompute` set the eligible set is `db` itself, fixed
for the run, so the force-aware loop at `offset` is exactly the
stable-set loop on `db.drop offset`. -/
theorem pagesLoopFAux_force
    (embed : List GoString → Except GoErr (List Vec))
    (cfg : VectorizerConfig) (cancelled : Nat → Bool) (batchSize : Nat)
    (db : List CleanReview) :
    ∀ (fuel pageIdx offset : Nat) (acc : VectorizeResult) (store : Store),
      pagesLoopFAux embed cfg cancelled batchSize true db fuel pageIdx
          offset acc store =
        pagesLoopAux embed cfg cancelled batchSize fuel pageIdx acc store
          (db.drop offset) := by
  intro fuel
  induction fuel with
  | zero => intro pageIdx offset acc store; rfl
  | succ n ih =>
      intro pageIdx offset acc store
      have hfetch : GetCleanReviewsForVectorization true db store
          batchSize offset = (db.drop offset).take batchSize := rfl
      simp only [pagesLoopFAux, pagesLoopAux, hfetch]
      by_cases hrev : (db.drop offset).take batchSize = []
      · rw [if_pos hrev, if_pos hrev]
      · rw [if_neg hrev, if_neg hrev]
        by_cases hshort : ((db.drop offset).take batchSize).length <
            batchSize
        · rw [if_pos hshort, if_pos hshort]
        · rw [if_neg hshort, if_neg hshort]
          by_cases hcanc : cancelled pageIdx
          · rw [if_pos hcanc, if_pos hcanc]
          · rw [if_neg hcanc, if_neg hcanc]
            have hdd : (db.drop offset).drop batchSize =
                db.drop (offset + batchSize) := by
              rw [List.drop_drop, Nat.add_comm]
            rw [ih (pageIdx + 1) (offset + batchSize), hdd]

/-- `processAllReviews` is the force-recompute instance of the
force-aware driver. -/
theorem processAllReviewsF_force_eq
    (embed : List GoString → Except GoErr (List Vec))
    (cfg : VectorizerConfig) (cancelled : Nat → Bool)
    (db : List CleanReview) (batchSize : Nat) (store : Store) :
    processAllReviewsF embed cfg cancelled true db batchSize store =
      processAllReviews embed cfg cancelled db batchSize store := by
  unfold processAllReviewsF processAllReviews pagesLoop
  rw [pagesLoopFAux_force, List.drop_zero]

end VectorizeService

/-!  ## Sample data for concrete evaluations -/

/-- A review with an empty (nil-or-blank) developer response. -/
def sampleNoResp : CleanReview :=
  { id := "r1", appId := "app", country := "US", rating := 5,
    language := "en", contentClean := gs "great app overall",
    contentEN := none, responseContentClean := some [] }

/-- A review with a non-empty developer response. -/
def sampleWithResp : CleanReview :=
  { id := "r2", appId := "app", country := "US", rating := 4,
    language := "en", contentClean := gs "not bad at all",
    contentEN := none,
    responseContentClean := some (gs "thanks for the feedback") }

/-- A small configuration: sub-batch size 10, dimension 2. -/
def sampleCfg : VectorizerConfig :=
  { batchSize := 10, maxVectorLength := 2, model := "m" }

/-- A stub embedder over a constant PRNG stream. -/
def sampleEmbed : List GoString → Except GoErr (List Vec) :=
  StubEmbedder.EmbedBatch 2 (fun _ => 0.5)

/-- A network oracle that answers every attempt with one empty vector
per submitted text (shape-correct, content-free). -/
def netOk : Nat → List GoString → Except GoErr (List Vec) :=
  fun _ texts => .ok (texts.map fun _ => ([] : Vec))

/-- A network oracle that fails every attempt. -/
def netFail : Nat → List GoString → Except GoErr (List Vec) :=
  fun a _ => .error (.msg ("boom " ++ toString a))

/-!  ## Claims -/

/-- At most one stored row per source-record identity. -/
def atMostOnePerReview (store : Store) : Prop :=
  store.Pairwise fun a b => a.reviewId ≠ b.reviewId

/-- **C4.** For every store state, upserting a `StoredVector` whose
record identity already has a row leaves the store unchanged (the
insert is a no-op, not an overwrite), and the at-most-one-row-per-record
invariant is preserved by every upsert. -/
theorem c4_upsert_noop_and_unique (v : Vector) (store : Store) :
    ((∃ r ∈ store, r.reviewId = v.reviewId) →
      UpsertEmbedding v store = store) ∧
    (atMostOnePerReview store →
      atMostOnePerReview (UpsertEmbedding v store)) := by
  constructor
  · rintro ⟨r, hr, hid⟩
    unfold UpsertEmbedding
    have hany : store.any (fun r => r.reviewId = v.reviewId) = true :=
      List.any_eq_true.mpr ⟨r, hr, by simp [hid]⟩
    simp [hany]
  · intro hinv
    unfold atMostOnePerReview at hinv ⊢
    unfold UpsertEmbedding
    by_cases hany : store.any (fun r => r.reviewId = v.reviewId) = true
    · simp [hany]; exact hinv
    · rw [if_neg hany]
      rw [List.pairwise_append]
      refine ⟨hinv, List.pairwise_singleton _ _, ?_⟩
      intro a ha b hb
      have hb' : b.reviewId = v.reviewId := by
        rcases List.mem_singleton.mp hb with rfl
        rfl
      rw [hb']
      have := (List.any_eq_true (l := store)).not.mp hany
      push_neg at this
      have h := this a ha
      simpa using h

/-- Witness for C4 at a concrete store and row. -/
theorem c4_witness :
    ((∃ r ∈ [Vector.mk "r1" "app" "en" 5 "US" "m" 2 [] none],
        r.reviewId = (Vector.mk "r1" "x" "de" 1 "DE" "m" 2 [] none).reviewId) →
      UpsertEmbedding (Vector.mk "r1" "x" "de" 1 "DE" "m" 2 [] none)
        [Vector.mk "r1" "app" "en" 5 "US" "m" 2 [] none] =
        [Vector.mk "r1" "app" "en" 5 "US" "m" 2 [] none]) ∧
    (atMostOnePerReview [Vector.mk "r1" "app" "en" 5 "US" "m" 2 [] none] →
      atMostOnePerReview (UpsertEmbedding
        (Vector.mk "r1" "x" "de" 1 "DE" "m" 2 [] none)
        [Vector.mk "r1" "app" "en" 5 "US" "m" 2 [] none])) :=
  c4_upsert_noop_and_unique _ _

/-- **C8.** Splitting a page of `N` records at sub-batch size `B > 0`
(the slicing loop of `processReviewsInBatches`) yields exactly
`⌈N/B⌉` contiguous sub-batches, whose sizes sum to `N` and whose
in-order concatenation is the original page. -/
theorem c8_batch_splitting_exact (B : Nat) (hB : 0 < B)
    (reviews : List CleanReview) :
    (chunksOf B reviews).length = (reviews.length + B - 1) / B ∧
    ((chunksOf B reviews).map List.length).sum = reviews.length ∧
    (chunksOf B reviews).flatten = reviews :=
  ⟨chunksOf_length B hB reviews, chunksOf_sum_length B hB reviews,
   chunksOf_flatten B hB reviews⟩

/-- Witness for C8: seven records at sub-batch size 3. -/
theorem c8_witness :
    (chunksOf 3 (List.replicate 7 sampleNoResp)).length =
      ((List.replicate 7 sampleNoResp).length + 3 - 1) / 3 ∧
    ((chunksOf 3 (List.replicate 7 sampleNoResp)).map List.length).sum =
      (List.replicate 7 sampleNoResp).length ∧
    (chunksOf 3 (List.replicate 7 sampleNoResp)).flatten =
      List.replicate 7 sampleNoResp :=
  c8_batch_splitting_exact 3 (by decide) _

/-- The fallback provider's shape: success, one vector per input, each
of dimension `dim`. -/
theorem stubEmbedBatch_shape (dim : Nat) (rand : Nat → Float)
    (inputs : List GoString) :
    ∃ vs, StubEmbedder.EmbedBatch dim rand inputs = .ok vs ∧
      vs.length = inputs.length ∧ ∀ v ∈ vs, v.length = dim := by
  unfold StubEmbedder.EmbedBatch
  by_cases hemp : inputs = []
  · subst hemp
    exact ⟨[], by simp, by simp, by simp⟩
  · refine ⟨(List.range inputs.length).map fun i =>
        StubEmbedder.stubVector dim rand (i * dim), ?_, by simp, ?_⟩
    · rw [if_neg hemp]
    · intro v hv
      rcases List.mem_map.mp hv with ⟨i, _, rfl⟩
      simp [StubEmbedder.stubVector]

/-- **C9.** The fallback provider succeeds on every input list,
returning exactly one vector per input, each of the configured fixed
dimension, regardless of input content or validity. -/
theorem c9_fallback_shape (dim : Nat) (rand : Nat → Float)
    (inputs : List GoString) :
    ∃ vs, StubEmbedder.EmbedBatch dim rand inputs = .ok vs ∧
      vs.length = inputs.length ∧ ∀ v ∈ vs, v.length = dim :=
  stubEmbedBatch_shape dim rand inputs

/-- Witness for C9 on two concrete inputs (one invalid, one valid). -/
theorem c9_witness :
    ∃ vs, StubEmbedder.EmbedBatch 2 (fun _ => 0.5) [gs "x", gs "hello"] =
        .ok vs ∧
      vs.length = [gs "x", gs "hello"].length ∧ ∀ v ∈ vs, v.length = 2 :=
  c9_fallback_shape 2 (fun _ => 0.5) [gs "x", gs "hello"]

/-- **C10.** On the empty input list both provider variants succeed
with zero vectors (so does the client), and the remote variant's
"no valid inputs after preprocessing" failure can only arise from a
non-empty input list whose every element is rejected by
`preprocessText`. -/
theorem c10_empty_input_ok_and_invalid_error_scope
    (maxRetries dim : Nat)
    (net : Nat → List GoString → Except GoErr (List Vec))
    (rand : Nat → Float) :
    OpenAIEmbedder.EmbedBatch maxRetries net [] = .ok [] ∧
    StubEmbedder.EmbedBatch dim rand [] = .ok [] ∧
    OpenAIClient.CreateEmbeddings maxRetries net [] = .ok [] ∧
    ∀ inputs, OpenAIEmbedder.EmbedBatch maxRetries net inputs =
        .error (.msg "no valid inputs after preprocessing") →
      inputs ≠ [] ∧ ∀ s ∈ inputs, preprocessText s = [] := by
  refine ⟨by simp [OpenAIEmbedder.EmbedBatch],
    by simp [StubEmbedder.EmbedBatch],
    by simp [OpenAIClient.CreateEmbeddings], ?_⟩
  intro inputs herr
  unfold OpenAIEmbedder.EmbedBatch at herr
  by_cases hemp : inputs = []
  · simp [hemp] at herr
  · rw [if_neg hemp] at herr
    simp only at herr
    constructor
    · exact hemp
    · by_cases hproc : inputs.filterMap (fun t =>
        let p := preprocessText t
        if p = [] then none else some p) = []
      · intro s hs
        have := List.filterMap_eq_nil_iff.mp hproc s hs
        simp only at this
        by_contra hne
        rw [if_neg hne] at this
        exact Option.some_ne_none _ this
      · rw [if_neg hproc] at herr
        exfalso
        rcases hce : OpenAIClient.CreateEmbeddings maxRetries net
          (inputs.filterMap (fun t =>
            let p := preprocessText t
            if p = [] then none else some p)) with e | vs <;>
          rw [hce] at herr <;> simp at herr

/-- Witness for C10: concrete `maxRetries`, oracle, dimension, stream,
and the invalid-only input list `[" x "]`. -/
theorem c10_witness :
    OpenAIEmbedder.EmbedBatch 2 netOk [] = .ok [] ∧
    ([gs " x "] ≠ [] ∧ ∀ s ∈ [gs " x "], preprocessText s = []) :=
  ⟨(c10_empty_input_ok_and_invalid_error_scope 2 2 netOk (fun _ => 0.5)).1,
   (c10_empty_input_ok_and_invalid_error_scope 2 2 netOk
      (fun _ => 0.5)).2.2.2 [gs " x "] (by rfl)⟩

/-- **C1** (evaluation at the failing input): a sub-batch of two
records, the first (`"r1"`) with empty response text and the second
(`"r2"`) with non-empty response text.  One response vector is computed
(for `"r2"`'s text), but `createVector` indexes the response-vector
list with the record's position in the FULL sub-batch — a flat
positional zip — so the vector lands on `"r1"` (whose response was
empty) and `"r2"` gets none: the exact opposite of the assembler
contract the specification states. -/
theorem c1_flat_zip_misassignment :
    (match VectorizeService.processBatch sampleEmbed sampleCfg
        [sampleNoResp, sampleWithResp] [] with
     | .ok (_, st) => st.map fun v => (v.reviewId, v.responseVec.isSome)
     | .error _ => []) = [("r1", true), ("r2", false)] := by decide

/-- **C3** (counterexample): page size 1 over two eligible records,
cancellation signalled at the first between-pages check.  The
pagination driver accumulates `processed = 1` from the completed first
page, yet `RunOnce` hands its caller the empty `VectorizeResult`
beside the cancellation error — not the accumulated result the claim
describes. -/
theorem c3_counterexample :
    (VectorizeService.processAllReviews sampleEmbed sampleCfg
      (fun _ => true) [sampleNoResp, sampleWithResp] 1 []).result.processed
        = 1 ∧
    (VectorizeService.RunOnce sampleEmbed sampleCfg (fun _ => true)
      [sampleNoResp, sampleWithResp] 1 []).result = VectorizeResult.empty ∧
    (VectorizeService.RunOnce sampleEmbed sampleCfg (fun _ => true)
      [sampleNoResp, sampleWithResp] 1 []).err.isSome = true := by decide

/-- **C3** (amended): when the driver stops with an error — in
particular the cancellation error — `processAllReviews` itself returns
the accumulated partial result beside that error, but `RunOnce`
discards the partial result: its caller receives the empty
`VectorizeResult` together with the wrapped error, while the store
keeps the rows already written. -/
theorem c3_runonce_discards_partial_result
    (embed : List GoString → Except GoErr (List Vec))
    (cfg : VectorizerConfig) (cancelled : Nat → Bool)
    (db : List CleanReview) (limit : Int) (store : Store) (e : GoErr)
    (h : (VectorizeService.processAllReviews embed cfg cancelled db
        (VectorizeService.determineBatchSize limit cfg) store).err = some e) :
    VectorizeService.RunOnce embed cfg cancelled db limit store =
      ⟨VectorizeResult.empty,
       (VectorizeService.processAllReviews embed cfg cancelled db
         (VectorizeService.determineBatchSize limit cfg) store).store,
       some (.wrap "failed to process reviews" e),
       (VectorizeService.processAllReviews embed cfg cancelled db
         (VectorizeService.determineBatchSize limit cfg) store).fetches⟩ := by
  simp only [VectorizeService.RunOnce]
  rw [h]

/-- Witness for the amended C3 at the concrete cancelled two-page run. -/
theorem c3_witness :
    VectorizeService.RunOnce sampleEmbed sampleCfg (fun _ => true)
      [sampleNoResp, sampleWithResp] 1 [] =
      ⟨VectorizeResult.empty,
       (VectorizeService.processAllReviews sampleEmbed sampleCfg
         (fun _ => true) [sampleNoResp, sampleWithResp]
         (VectorizeService.determineBatchSize 1 sampleCfg) []).store,
       some (.wrap "failed to process reviews" (.msg "context canceled")),
       (VectorizeService.processAllReviews sampleEmbed sampleCfg
         (fun _ => true) [sampleNoResp, sampleWithResp]
         (VectorizeService.determineBatchSize 1 sampleCfg) []).fetches⟩ :=
  c3_runonce_discards_partial_result sampleEmbed sampleCfg (fun _ => true)
    [sampleNoResp, sampleWithResp] 1 [] (.msg "context canceled") (by decide)

/-- **C5** (counterexample): one eligible record, page size 1 (`P`
divides `C`).  The claim predicts exactly `⌈1/1⌉ = 1` fetch, but the
driver — with force-recompute set or unset — reads the full page and
must issue a second, empty fetch to learn the data is exhausted.  The
last two components record the default-mode dynamics: over two
eligible records at page size 1 with force-recompute unset, the stored
first row leaves the eligible set while the offset still advances, so
the run issues 2 fetches and processes only 1 record (the second is
silently skipped). -/
theorem c5_counterexample :
    (VectorizeService.processAllReviewsF sampleEmbed sampleCfg
      (fun _ => false) true [sampleNoResp] 1 []).fetches = 2 ∧
    (VectorizeService.processAllReviewsF sampleEmbed sampleCfg
      (fun _ => false) false [sampleNoResp] 1 []).fetches = 2 ∧
    (1 + 1 - 1) / 1 = 1 ∧
    (VectorizeService.processAllReviewsF sampleEmbed sampleCfg
      (fun _ => false) false [sampleNoResp, sampleWithResp] 1
      []).fetches = 2 ∧
    (VectorizeService.processAllReviewsF sampleEmbed sampleCfg
      (fun _ => false) false [sampleNoResp, sampleWithResp] 1
      []).result.processed = 1 := by decide

/-- Fetch count of an uncancelled page loop: `⌈C/P⌉` fetches when `P`
does not divide `C`, and `C/P + 1` (one trailing empty fetch) when it
does. -/
theorem pagesLoop_fetches (embed : List GoString → Except GoErr (List Vec))
    (cfg : VectorizerConfig) (batchSize : Nat) (hB : 0 < batchSize) :
    ∀ (remaining : List CleanReview) (pageIdx : Nat)
      (acc : VectorizeResult) (store : Store),
      (VectorizeService.pagesLoop embed cfg (fun _ => false) batchSize
        pageIdx acc store remaining).fetches =
      if remaining.length % batchSize = 0 then
        remaining.length / batchSize + 1
      else (remaining.length + batchSize - 1) / batchSize := by
  intro remaining
  generalize hn : remaining.length = n
  induction n using Nat.strong_induction_on generalizing remaining with
  | _ n ih =>
    intro pageIdx acc store
    rw [VectorizeService.pagesLoop_eq]
    by_cases hrev : remaining.take batchSize = []
    · have hrem : remaining = [] := by
        cases remaining with
        | nil => rfl
        | cons x xs =>
            exfalso
            rw [List.take_cons (by omega : 0 < batchSize)] at hrev
            exact List.cons_ne_nil _ _ hrev
      subst hrem
      simp only [List.length_nil] at hn
      subst hn
      simp [hrev, Nat.zero_mod, Nat.zero_div]
    · have hne : remaining ≠ [] := by
        intro habs
        exact hrev (by rw [habs, List.take_nil])
      have hpos : 0 < remaining.length := List.length_pos.mpr hne
      have htk : (remaining.take batchSize).length =
          min batchSize remaining.length := List.length_take _ _
      simp only [if_neg hrev]
      by_cases hshort : (remaining.take batchSize).length < batchSize
      · simp only [if_pos hshort]
        have hlen : n < batchSize := by omega
        have hpos' : 0 < n := by omega
        rw [Nat.mod_eq_of_lt hlen, if_neg (by omega)]
        symm
        apply Nat.div_eq_of_lt_le <;> omega
      · simp only [if_neg hshort, Bool.false_eq_true, if_false]
        have hBle : batchSize ≤ remaining.length := by omega
        have hdlen : (remaining.drop batchSize).length =
            remaining.length - batchSize := by
          simp only [List.length_drop]
        have hlt : (remaining.drop batchSize).length < n := by omega
        rw [ih _ hlt _ rfl, hdlen, ← hn]
        obtain ⟨M, hM⟩ : ∃ M, remaining.length = batchSize + M :=
          ⟨remaining.length - batchSize, by omega⟩
        rw [hM]
        have hMsub : batchSize + M - batchSize = M := by omega
        rw [hMsub, Nat.add_mod_left]
        by_cases hz : M % batchSize = 0
        · rw [if_pos hz, if_pos hz]
          have hcomm : batchSize + M = M + batchSize := by omega
          rw [hcomm, Nat.add_div_right _ hB]
        · rw [if_neg hz, if_neg hz]
          have h2 : batchSize + M + batchSize - 1 =
              (M + batchSize - 1) + batchSize := by omega
          rw [h2, Nat.add_div_right _ hB]

/-- **C5** (amended): for `C` eligible records and page size `P > 0`,
an uncancelled run of the force-aware driver with force-recompute set
— the mode in which the eligible set is stable across the run, as the
claim's fixed count `C` presumes — terminates, stopping at the first
empty page and, after a short page, processing it and stopping.  It
issues exactly `⌈C/P⌉` fetches when `P` does not divide `C`, and
`C/P + 1` fetches — the full pages plus ONE final empty fetch (also
the single empty fetch when `C = 0`) — when `P` divides `C`; never
more.  With force-recompute unset, rows stored by the run drop out of
the eligible set while the offset still advances, so the fetch count
can be lower (the counterexample's last components evaluate this). -/
theorem c5_fetch_count (embed : List GoString → Except GoErr (List Vec))
    (cfg : VectorizerConfig) (db : List CleanReview) (P : Nat)
    (hP : 0 < P) (store : Store) :
    (VectorizeService.processAllReviewsF embed cfg (fun _ => false) true
      db P store).fetches =
      if db.length % P = 0 then db.length / P + 1
      else (db.length + P - 1) / P := by
  rw [VectorizeService.processAllReviewsF_force_eq]
  exact pagesLoop_fetches embed cfg P hP db 0 VectorizeResult.empty store

/-- Witness for the amended C5: four records, page size 2, force — the
driver fetches `4/2 + 1 = 3` pages. -/
theorem c5_witness :
    (VectorizeService.processAllReviewsF sampleEmbed sampleCfg
      (fun _ => false) true
      [sampleNoResp, sampleWithResp, sampleNoResp, sampleWithResp] 2
      []).fetches =
      if ([sampleNoResp, sampleWithResp, sampleNoResp,
            sampleWithResp].length : Nat) % 2 = 0 then
        [sampleNoResp, sampleWithResp, sampleNoResp,
          sampleWithResp].length / 2 + 1
      else ([sampleNoResp, sampleWithResp, sampleNoResp,
          sampleWithResp].length + 2 - 1) / 2 :=
  c5_fetch_count sampleEmbed sampleCfg _ 2 (by decide) []

/-!  ## C2: embed_batch length contract -/

/-- A network oracle is shape-correct when every successful response
carries exactly one vector per submitted text. -/
def ShapeCorrect
    (net : Nat → List GoString → Except GoErr (List Vec)) : Prop :=
  ∀ a texts vs, net a texts = .ok vs → vs.length = texts.length

/-- A successful retry loop returns the response of one of its
attempts. -/
theorem attemptLoop_ok_exists (call : Nat → Except GoErr (List Vec)) :
    ∀ (remaining attempt : Nat) (vs : List Vec),
      (OpenAIClient.attemptLoop call attempt remaining).1 = .ok vs →
      ∃ a, call a = .ok vs := by
  intro remaining
  induction remaining with
  | zero =>
      intro attempt vs h
      exact ⟨attempt, h⟩
  | succ n ih =>
      intro attempt vs h
      cases hc : call attempt with
      | ok v =>
          simp only [OpenAIClient.attemptLoop, hc] at h
          exact ⟨attempt, by rw [hc, h]⟩
      | error e =>
          simp only [OpenAIClient.attemptLoop, hc] at h
          exact ih (attempt + 1) vs h

/-- A successful `processBatch` returns the response of one of its
attempts. -/
theorem processBatch_ok_exists (maxRetries : Nat)
    (call : Nat → Except GoErr (List Vec)) (vs : List Vec)
    (h : OpenAIClient.processBatch maxRetries call = .ok vs) :
    ∃ a, call a = .ok vs := by
  unfold OpenAIClient.processBatch at h
  cases hal : (OpenAIClient.attemptLoop call 0 maxRetries).1 with
  | ok v =>
      rw [hal] at h
      simp only [Except.ok.injEq] at h
      subst h
      exact attemptLoop_ok_exists call maxRetries 0 v hal
  | error e =>
      rw [hal] at h
      exact absurd h (by simp)

/-- Under a shape-correct oracle, a successful `embedChunks` yields one
vector per text of the submitted chunks. -/
theorem embedChunks_ok_length (maxRetries : Nat)
    (net : Nat → List GoString → Except GoErr (List Vec))
    (hnet : ShapeCorrect net) :
    ∀ (chunks : List (List GoString)) (vs : List Vec),
      OpenAIClient.embedChunks maxRetries net chunks = .ok vs →
      vs.length = (chunks.map List.length).sum := by
  intro chunks
  induction chunks with
  | nil =>
      intro vs h
      simp only [OpenAIClient.embedChunks, Except.ok.injEq] at h
      subst h
      simp
  | cons c cs ih =>
      intro vs h
      simp only [OpenAIClient.embedChunks] at h
      cases hpb : OpenAIClient.processBatch maxRetries (fun a => net a c) with
      | error e => rw [hpb] at h; exact absurd h (by simp)
      | ok vs1 =>
          rw [hpb] at h
          cases hec : OpenAIClient.embedChunks maxRetries net cs with
          | error e => rw [hec] at h; exact absurd h (by simp)
          | ok rest =>
              rw [hec] at h
              simp only [Except.ok.injEq] at h
              subst h
              obtain ⟨a, ha⟩ := processBatch_ok_exists _ _ _ hpb
              have h1 : vs1.length = c.length := hnet a c vs1 ha
              have h2 : rest.length = (cs.map List.length).sum := ih rest hec
              simp [h1, h2]

/-- Under a shape-correct oracle, a successful `CreateEmbeddings`
yields one vector per text. -/
theorem createEmbeddings_ok_length (maxRetries : Nat)
    (net : Nat → List GoString → Except GoErr (List Vec))
    (hnet : ShapeCorrect net) (texts : List GoString) (vs : List Vec)
    (h : OpenAIClient.CreateEmbeddings maxRetries net texts = .ok vs) :
    vs.length = texts.length := by
  unfold OpenAIClient.CreateEmbeddings at h
  by_cases ht : texts = []
  · rw [if_pos ht] at h
    simp only [Except.ok.injEq] at h
    subst h
    simp [ht]
  · rw [if_neg ht] at h
    have hlen := embedChunks_ok_length maxRetries net hnet _ vs h
    rwa [chunksOf_sum_length 10 (by omega) texts] at hlen

/-- `netOk` is shape-correct. -/
theorem netOk_shape : ShapeCorrect netOk := by
  intro a texts vs h
  simp only [netOk, Except.ok.injEq] at h
  subst h
  simp

/-- **C2** (counterexample): with a shape-correct oracle the remote
variant maps the two-element input `["hello", "x"]` — whose second
element is rejected by preprocessing — to a SUCCESS carrying only one
vector, so `embed_batch` does not return a list of the same length as
its input (nor is the vector at position 1 the embedding of input 1). -/
theorem c2_counterexample :
    ([gs "hello", gs "x"] : List GoString).length = 2 ∧
    (match OpenAIEmbedder.EmbedBatch 2 netOk [gs "hello", gs "x"] with
     | .ok vs => some vs.length
     | .error _ => none) = some 1 := by decide

/-- **C2** (amended): the fallback variant does return exactly one
vector per input.  The remote variant, under a shape-correct network
oracle, returns on success exactly one vector per input that SURVIVES
preprocessing (the i-th vector corresponding to the i-th surviving
input), which equals the input length only when no input is rejected;
otherwise it returns a typed failure. -/
theorem c2_embed_batch_lengths (maxRetries : Nat)
    (net : Nat → List GoString → Except GoErr (List Vec))
    (hnet : ShapeCorrect net) (inputs : List GoString) :
    (∀ vs, OpenAIEmbedder.EmbedBatch maxRetries net inputs = .ok vs →
      vs.length = (OpenAIEmbedder.processedInputs inputs).length) ∧
    (∀ dim rand, ∃ vs, StubEmbedder.EmbedBatch dim rand inputs = .ok vs ∧
      vs.length = inputs.length) := by
  constructor
  · intro vs h
    unfold OpenAIEmbedder.EmbedBatch at h
    by_cases hemp : inputs = []
    · rw [if_pos hemp] at h
      simp only [Except.ok.injEq] at h
      subst h
      subst hemp
      rfl
    · rw [if_neg hemp] at h
      simp only at h
      by_cases hproc : inputs.filterMap (fun t =>
          let p := preprocessText t
          if p = [] then none else some p) = []
      · rw [if_pos hproc] at h
        exact absurd h (by simp)
      · rw [if_neg hproc] at h
        cases hce : OpenAIClient.CreateEmbeddings maxRetries net
            (inputs.filterMap (fun t =>
              let p := preprocessText t
              if p = [] then none else some p)) with
        | error e => rw [hce] at h; exact absurd h (by simp)
        | ok vs' =>
            rw [hce] at h
            simp only [Except.ok.injEq] at h
            subst h
            exact createEmbeddings_ok_length maxRetries net hnet _ _ hce
  · intro dim rand
    obtain ⟨vs, h1, h2, _⟩ := stubEmbedBatch_shape dim rand inputs
    exact ⟨vs, h1, h2⟩

/-- Witness for the amended C2 at the concrete oracle and inputs of the
counterexample. -/
theorem c2_witness :
    (∀ vs, OpenAIEmbedder.EmbedBatch 2 netOk [gs "hello", gs "x"] =
        .ok vs →
      vs.length =
        (OpenAIEmbedder.processedInputs [gs "hello", gs "x"]).length) ∧
    (∀ dim rand, ∃ vs,
      StubEmbedder.EmbedBatch dim rand [gs "hello", gs "x"] = .ok vs ∧
      vs.length = [gs "hello", gs "x"].length) :=
  c2_embed_batch_lengths 2 netOk netOk_shape [gs "hello", gs "x"]

/-!  ## C6: retry bound and sub-batch failure accounting -/

/-- Success flag of a client call result. -/
def isOkE (r : Except GoErr (List Vec)) : Bool :=
  match r with
  | .ok _ => true
  | .error _ => false

/-- A retry loop whose every attempt fails performs every allowed
attempt and ends with the last attempt's error. -/
theorem attemptLoop_all_fail (call : Nat → Except GoErr (List Vec))
    (errF : Nat → GoErr) (hfail : ∀ a, call a = .error (errF a)) :
    ∀ (remaining attempt : Nat),
      OpenAIClient.attemptLoop call attempt remaining =
        (.error (errF (attempt + remaining)), remaining + 1) := by
  intro remaining
  induction remaining with
  | zero =>
      intro attempt
      simp [OpenAIClient.attemptLoop, hfail attempt]
  | succ n ih =>
      intro attempt
      have harith : attempt + 1 + n = attempt + (n + 1) := by omega
      simp [OpenAIClient.attemptLoop, hfail attempt, ih (attempt + 1),
        harith]

/-- A first success at attempt `k` stops the retry loop after `k + 1`
attempts with that success. -/
theorem attemptLoop_shortcircuit (call : Nat → Except GoErr (List Vec)) :
    ∀ (k remaining attempt : Nat) (vs : List Vec), k ≤ remaining →
      call (attempt + k) = .ok vs →
      (∀ a, a < k → isOkE (call (attempt + a)) = false) →
      OpenAIClient.attemptLoop call attempt remaining = (.ok vs, k + 1) := by
  intro k
  induction k with
  | zero =>
      intro remaining attempt vs _ hok _
      rw [Nat.add_zero] at hok
      cases remaining with
      | zero => simp [OpenAIClient.attemptLoop, hok]
      | succ n => simp [OpenAIClient.attemptLoop, hok]
  | succ k ih =>
      intro remaining attempt vs hk hok hbef
      obtain ⟨n, rfl⟩ : ∃ n, remaining = n + 1 := ⟨remaining - 1, by omega⟩
      have h0 : isOkE (call attempt) = false := by
        have := hbef 0 (by omega)
        rwa [Nat.add_zero] at this
      cases hc : call attempt with
      | ok v => rw [hc] at h0; simp [isOkE] at h0
      | error e =>
          simp only [OpenAIClient.attemptLoop, hc]
          rw [ih n (attempt + 1) vs (by omega)
            (by rw [show attempt + 1 + k = attempt + (k + 1) by omega]
                exact hok)
            (fun a ha => by
              rw [show attempt + 1 + a = attempt + (a + 1) by omega]
              exact hbef (a + 1) (by omega))]

/-- With an always-failing oracle, the remote `EmbedBatch` fails on
every non-empty input list. -/
theorem embedBatch_fails_of_net_fails (maxRetries : Nat)
    (net : Nat → List GoString → Except GoErr (List Vec))
    (errF : Nat → List GoString → GoErr)
    (hfail : ∀ a texts, net a texts = .error (errF a texts)) :
    ∀ inputs : List GoString, inputs ≠ [] →
      ∃ e, OpenAIEmbedder.EmbedBatch maxRetries net inputs = .error e := by
  intro inputs hne
  unfold OpenAIEmbedder.EmbedBatch
  rw [if_neg hne]
  simp only
  by_cases hproc : inputs.filterMap (fun t =>
      let p := preprocessText t
      if p = [] then none else some p) = []
  · rw [if_pos hproc]
    exact ⟨_, rfl⟩
  · rw [if_neg hproc]
    have hce : ∃ e, OpenAIClient.CreateEmbeddings maxRetries net
        (inputs.filterMap (fun t =>
          let p := preprocessText t
          if p = [] then none else some p)) = .error e := by
      unfold OpenAIClient.CreateEmbeddings
      rw [if_neg hproc]
      rw [chunksOf_cons 10 (by omega) _ hproc]
      simp only [OpenAIClient.embedChunks]
      have hpb : OpenAIClient.processBatch maxRetries
          (fun a => net a ((inputs.filterMap (fun t =>
            let p := preprocessText t
            if p = [] then none else some p)).take 10)) =
          .error (.wrap "all retry attempts failed"
            (errF maxRetries ((inputs.filterMap (fun t =>
              let p := preprocessText t
              if p = [] then none else some p)).take 10))) := by
        unfold OpenAIClient.processBatch
        rw [attemptLoop_all_fail _ (fun a => errF a _)
          (fun a => hfail a _) maxRetries 0]
        rw [Nat.zero_add]
      rw [hpb]
      exact ⟨_, rfl⟩
    obtain ⟨e, he⟩ := hce
    rw [he]
    exact ⟨_, rfl⟩

/-- When the embedder fails on every non-empty input, the service's
`processBatch` fails on every non-empty sub-batch (content vectors are
mandatory). -/
theorem processBatch_error_of_embed_error
    (embed : List GoString → Except GoErr (List Vec))
    (cfg : VectorizerConfig)
    (hembed : ∀ inputs : List GoString, inputs ≠ [] →
      ∃ e, embed inputs = .error e) :
    ∀ (batch : List CleanReview) (store : Store), batch ≠ [] →
      ∃ e, VectorizeService.processBatch embed cfg batch store =
        .error e := by
  intro batch store hne
  unfold VectorizeService.processBatch
  rw [if_neg hne]
  simp only [VectorizeService.prepareTexts]
  have hct : batch.map (·.contentClean) ≠ [] := by
    simpa using hne
  rw [if_neg hct]
  obtain ⟨e, he⟩ := hembed _ hct
  unfold VectorizeService.generateEmbeddings
  rw [he]
  exact ⟨_, rfl⟩

/-- Folding the sub-batch step over chunks that all fail adds each
chunk's full size to `failed`, stores nothing, and continues. -/
theorem foldl_batchStep_allfail
    (embed : List GoString → Except GoErr (List Vec))
    (cfg : VectorizerConfig)
    (hembed : ∀ inputs : List GoString, inputs ≠ [] →
      ∃ e, embed inputs = .error e) :
    ∀ (chunks : List (List CleanReview)) (acc : VectorizeResult)
      (store : Store), (∀ c ∈ chunks, c ≠ []) →
      chunks.foldl (VectorizeService.batchStep embed cfg) (acc, store) =
        ({ acc with failed := acc.failed + (chunks.map List.length).sum },
         store) := by
  intro chunks
  induction chunks with
  | nil =>
      intro acc store _
      simp
  | cons c cs ih =>
      intro acc store hall
      have hc : c ≠ [] := hall c (List.mem_cons_self c cs)
      obtain ⟨e, he⟩ :=
        processBatch_error_of_embed_error embed cfg hembed c store hc
      simp only [List.foldl_cons]
      have hstep : VectorizeService.batchStep embed cfg (acc, store) c =
          ({ acc with failed := acc.failed + c.length }, store) := by
        unfold VectorizeService.batchStep
        rw [he]
      rw [hstep, ih _ _ (fun d hd => hall d (List.mem_cons_of_mem c hd))]
      simp [Nat.add_assoc]

/-- **C6.** Under a network oracle failing every attempt with
`errF a texts`: (i) the client's retry loop performs exactly
`maxRetries + 1` attempts, (ii) surfaces the LAST attempt's error
wrapped in the retries-exhausted error, (iii) every non-empty page then
fails wholesale through the remote embedder — the run's failed count
grows by each full sub-batch size (summing to the page size), nothing
is stored, and processing continues across sub-batches; and (iv) a
first success at attempt `k ≤ maxRetries` short-circuits the loop at
`k + 1` attempts with that success. -/
theorem c6_retry_bound (maxRetries : Nat)
    (net : Nat → List GoString → Except GoErr (List Vec))
    (errF : Nat → List GoString → GoErr)
    (hfail : ∀ a texts, net a texts = .error (errF a texts))
    (cfg : VectorizerConfig) (hB : 0 < cfg.batchSize) :
    (∀ texts, OpenAIClient.attemptsMade maxRetries
        (fun a => net a texts) = maxRetries + 1) ∧
    (∀ texts, OpenAIClient.processBatch maxRetries (fun a => net a texts) =
      .error (.wrap "all retry attempts failed" (errF maxRetries texts))) ∧
    (∀ (reviews : List CleanReview) (store : Store), reviews ≠ [] →
      VectorizeService.processReviewsInBatches
        (OpenAIEmbedder.EmbedBatch maxRetries net) cfg reviews store =
      (⟨0, 0, reviews.length, []⟩, store)) ∧
    (∀ (call : Nat → Except GoErr (List Vec)) (k : Nat) (vs : List Vec),
      k ≤ maxRetries → call k = .ok vs →
      (∀ a, a < k → isOkE (call a) = false) →
      OpenAIClient.processBatch maxRetries call = .ok vs ∧
      OpenAIClient.attemptsMade maxRetries call = k + 1) := by
  refine ⟨?_, ?_, ?_, ?_⟩
  · intro texts
    unfold OpenAIClient.attemptsMade
    rw [attemptLoop_all_fail _ (fun a => errF a texts)
      (fun a => hfail a texts) maxRetries 0]
  · intro texts
    unfold OpenAIClient.processBatch
    rw [attemptLoop_all_fail _ (fun a => errF a texts)
      (fun a => hfail a texts) maxRetries 0]
    rw [Nat.zero_add]
  · intro reviews store hne
    unfold VectorizeService.processReviewsInBatches
    rw [foldl_batchStep_allfail _ cfg
      (embedBatch_fails_of_net_fails maxRetries net errF hfail) _ _ _
      (fun c hc => chunksOf_mem_ne_nil cfg.batchSize hB reviews c hc)]
    rw [chunksOf_sum_length cfg.batchSize hB reviews]
    simp [VectorizeResult.empty]
  · intro call k vs hk hok hbef
    have hloop := attemptLoop_shortcircuit call k maxRetries 0 vs hk
      (by rw [Nat.zero_add]; exact hok)
      (fun a ha => by rw [Nat.zero_add]; exact hbef a ha)
    constructor
    · unfold OpenAIClient.processBatch
      rw [hloop]
    · unfold OpenAIClient.attemptsMade
      rw [hloop]

/-- Witness for C6: `maxRetries = 2`, the always-failing oracle
`netFail`, and a one-record page. -/
theorem c6_witness :
    OpenAIClient.attemptsMade 2 (fun a => netFail a [gs "abc"]) = 2 + 1 ∧
    VectorizeService.processReviewsInBatches
      (OpenAIEmbedder.EmbedBatch 2 netFail) sampleCfg [sampleNoResp] [] =
      (⟨0, 0, [sampleNoResp].length, []⟩, []) :=
  ⟨(c6_retry_bound 2 netFail (fun a _ => .msg ("boom " ++ toString a))
      (fun _ _ => rfl) sampleCfg (by decide)).1 [gs "abc"],
   (c6_retry_bound 2 netFail (fun a _ => .msg ("boom " ++ toString a))
      (fun _ _ => rfl) sampleCfg (by decide)).2.2.1 [sampleNoResp] []
     (by decide)⟩

/-!  ## C7: preprocessing rejection

The words `fields` produces are non-empty and whitespace-free, so
`normalizeWS` is idempotent and every text a surviving input produces
is a `preprocessText` fixed point of byte length at least 3. -/

/-- A word as produced by `fields`: non-empty and whitespace-free. -/
def IsWord (w : GoString) : Prop :=
  w ≠ [] ∧ ∀ c ∈ w, goIsSpace c = false

/-- Every list `fieldsAux` emits (from a whitespace-free accumulator)
is a word. -/
theorem fieldsAux_mem (s : GoString) : ∀ acc : GoString,
    (∀ c ∈ acc, goIsSpace c = false) →
    ∀ w ∈ fieldsAux s acc, IsWord w := by
  induction s with
  | nil =>
      intro acc hacc w hw
      simp only [fieldsAux] at hw
      by_cases h : acc = []
      · rw [if_pos h] at hw
        exact absurd hw (List.not_mem_nil w)
      · rw [if_neg h] at hw
        rcases List.mem_singleton.mp hw with rfl
        exact ⟨by simpa using h,
          fun c hc => hacc c (List.mem_reverse.mp hc)⟩
  | cons x rest ih =>
      intro acc hacc w hw
      simp only [fieldsAux] at hw
      by_cases hx : goIsSpace x = true
      · rw [if_pos hx] at hw
        by_cases h : acc = []
        · rw [if_pos h] at hw
          exact ih [] (fun c hc => absurd hc (List.not_mem_nil c)) w hw
        · rw [if_neg h] at hw
          rcases List.mem_cons.mp hw with rfl | h2
          · exact ⟨by simpa using h,
              fun c hc => hacc c (List.mem_reverse.mp hc)⟩
          · exact ih [] (fun c hc => absurd hc (List.not_mem_nil c)) w h2
      · rw [if_neg hx] at hw
        refine ih (x :: acc) ?_ w hw
        intro c hc
        rcases List.mem_cons.mp hc with rfl | hc2
        · exact Bool.eq_false_iff.mpr hx
        · exact hacc c hc2

/-- Every word of `fields s` is non-empty and whitespace-free. -/
theorem mem_fields_isWord (s w : GoString) (hw : w ∈ fields s) :
    IsWord w :=
  fieldsAux_mem s [] (fun c hc => absurd hc (List.not_mem_nil c)) w hw

/-- Consuming a whitespace-free prefix just extends the accumulator. -/
theorem fieldsAux_consume_word : ∀ (w s acc : GoString),
    (∀ c ∈ w, goIsSpace c = false) →
    fieldsAux (w ++ s) acc = fieldsAux s (w.reverse ++ acc) := by
  intro w
  induction w with
  | nil => intro s acc _; simp
  | cons c w' ih =>
      intro s acc hw
      have hc : goIsSpace c = false := hw c (List.mem_cons_self c w')
      show fieldsAux (c :: (w' ++ s)) acc =
        fieldsAux s ((c :: w').reverse ++ acc)
      simp only [fieldsAux]
      rw [if_neg (by simp [hc])]
      rw [ih s (c :: acc) (fun d hd => hw d (List.mem_cons_of_mem c hd))]
      congr 1
      simp

/-- `fields` recovers the word list from a space-joined word list. -/
theorem fields_joinSpace : ∀ ws : List GoString,
    (∀ w ∈ ws, IsWord w) → fields (joinSpace ws) = ws := by
  intro ws
  induction ws with
  | nil => intro _; rfl
  | cons w rest ih =>
      intro hws
      obtain ⟨hwne, hwsp⟩ := hws w (List.mem_cons_self w rest)
      cases rest with
      | nil =>
          show fieldsAux (joinSpace [w]) [] = [w]
          have h1 : fieldsAux (w ++ []) [] = fieldsAux [] (w.reverse ++ []) :=
            fieldsAux_consume_word w [] [] hwsp
          simp only [List.append_nil] at h1
          show fieldsAux w [] = [w]
          rw [h1]
          simp only [fieldsAux]
          rw [if_neg (by simpa using hwne), List.reverse_reverse]
      | cons x xs =>
          show fieldsAux (w ++ ' ' :: joinSpace (x :: xs)) [] = w :: x :: xs
          rw [fieldsAux_consume_word w (' ' :: joinSpace (x :: xs)) [] hwsp]
          simp only [List.append_nil, fieldsAux]
          rw [if_pos (by decide), if_neg (by simpa using hwne),
            List.reverse_reverse]
          exact congrArg (w :: ·)
            (ih fun v hv => hws v (List.mem_cons_of_mem w hv))

/-- Space-joining over a final extra word. -/
theorem joinSpace_snoc : ∀ (xs : List GoString) (y : GoString), xs ≠ [] →
    joinSpace (xs ++ [y]) = joinSpace xs ++ ' ' :: y := by
  intro xs
  induction xs with
  | nil => intro y h; exact absurd rfl h
  | cons x xs ih =>
      intro y _
      cases xs with
      | nil => rfl
      | cons x2 xs2 =>
          have h2 := ih y (List.cons_ne_nil x2 xs2)
          show x ++ ' ' :: joinSpace ((x2 :: xs2) ++ [y]) =
            (x ++ ' ' :: joinSpace (x2 :: xs2)) ++ ' ' :: y
          rw [h2]
          simp

/-- Reversing a space-joined list joins the reversed words in reverse
order. -/
theorem joinSpace_reverse : ∀ ws : List GoString,
    (joinSpace ws).reverse = joinSpace ((ws.map List.reverse).reverse) := by
  intro ws
  induction ws with
  | nil => rfl
  | cons w rest ih =>
      cases rest with
      | nil => rfl
      | cons x xs =>
          have hM : ((x :: xs).map List.reverse).reverse ≠ [] := by simp
          show (w ++ ' ' :: joinSpace (x :: xs)).reverse =
            joinSpace (((w :: x :: xs).map List.reverse).reverse)
          rw [List.reverse_append, List.reverse_cons, ih]
          have hrhs : ((w :: x :: xs).map List.reverse).reverse =
              ((x :: xs).map List.reverse).reverse ++ [w.reverse] := by
            simp
          rw [hrhs, joinSpace_snoc _ _ hM]
          simp

/-- A space-joined word list has no leading whitespace. -/
theorem dropWhile_joinSpace (ws : List GoString)
    (hws : ∀ w ∈ ws, IsWord w) :
    (joinSpace ws).dropWhile goIsSpace = joinSpace ws := by
  cases ws with
  | nil => rfl
  | cons w rest =>
      obtain ⟨hne, hsp⟩ := hws w (List.mem_cons_self w rest)
      obtain ⟨c, w', rfl⟩ : ∃ c w', w = c :: w' := by
        cases w with
        | nil => exact absurd rfl hne
        | cons c w' => exact ⟨c, w', rfl⟩
      have hc : goIsSpace c = false := hsp c (List.mem_cons_self c w')
      cases rest with
      | nil =>
          show (c :: w').dropWhile goIsSpace = c :: w'
          rw [List.dropWhile_cons_of_neg (by simp [hc])]
      | cons x xs =>
          show ((c :: w') ++ ' ' :: joinSpace (x :: xs)).dropWhile goIsSpace
            = (c :: w') ++ ' ' :: joinSpace (x :: xs)
          rw [List.cons_append,
            List.dropWhile_cons_of_neg (by simp [hc])]

/-- A space-joined word list is already trimmed. -/
theorem trimSpace_joinSpace (ws : List GoString)
    (hws : ∀ w ∈ ws, IsWord w) :
    trimSpace (joinSpace ws) = joinSpace ws := by
  unfold trimSpace
  rw [dropWhile_joinSpace ws hws, joinSpace_reverse ws]
  have hws' : ∀ w ∈ (ws.map List.reverse).reverse, IsWord w := by
    intro w hw
    rw [List.mem_reverse, List.mem_map] at hw
    obtain ⟨v, hv, rfl⟩ := hw
    obtain ⟨h1, h2⟩ := hws v hv
    exact ⟨by simpa using h1, fun c hc => h2 c (List.mem_reverse.mp hc)⟩
  rw [dropWhile_joinSpace _ hws', ← joinSpace_reverse ws,
    List.reverse_reverse]

/-- Whitespace normalization is idempotent. -/
theorem normalizeWS_idem (s : GoString) :
    normalizeWS (normalizeWS s) = normalizeWS s := by
  unfold normalizeWS
  have hws : ∀ w ∈ fields (trimSpace s), IsWord w :=
    fun w hw => mem_fields_isWord _ w hw
  rw [trimSpace_joinSpace _ hws, fields_joinSpace _ hws]

/-- `preprocessText`, written through `normalizeWS`. -/
theorem preprocessText_eq (s : GoString) :
    preprocessText s =
      if goLen (normalizeWS s) < 3 then [] else normalizeWS s := rfl

/-- A surviving preprocessed text is a `preprocessText` fixed point. -/
theorem preprocessText_idem (s : GoString) (h : preprocessText s ≠ []) :
    preprocessText (preprocessText s) = preprocessText s := by
  rw [preprocessText_eq s] at h ⊢
  by_cases hlen : goLen (normalizeWS s) < 3
  · rw [if_pos hlen] at h
    exact absurd rfl h
  · rw [if_neg hlen] at h ⊢
    rw [preprocessText_eq, normalizeWS_idem, if_neg hlen]

/-- `sentChunks` submits only chunks from its input list. -/
theorem sentChunks_subset (maxRetries : Nat)
    (net : Nat → List GoString → Except GoErr (List Vec)) :
    ∀ (chunks : List (List GoString)) (c : List GoString),
      c ∈ OpenAIClient.sentChunks maxRetries net chunks → c ∈ chunks := by
  intro chunks
  induction chunks with
  | nil => intro c hc; exact absurd hc (List.not_mem_nil c)
  | cons d ds ih =>
      intro c hc
      simp only [OpenAIClient.sentChunks] at hc
      rcases List.mem_cons.mp hc with rfl | h2
      · exact List.mem_cons_self _ _
      · cases hpb : OpenAIClient.processBatch maxRetries
            (fun a => net a d) with
        | error e =>
            rw [hpb] at h2
            exact absurd h2 (List.not_mem_nil c)
        | ok vs =>
            rw [hpb] at h2
            exact List.mem_cons_of_mem d (ih c h2)

/-- A member of the surviving inputs is a non-rejected preprocessed
form of some input. -/
theorem mem_processedInputs (inputs : List GoString) (p : GoString)
    (hp : p ∈ OpenAIEmbedder.processedInputs inputs) :
    ∃ t ∈ inputs, preprocessText t = p ∧ p ≠ [] := by
  unfold OpenAIEmbedder.processedInputs at hp
  rw [List.mem_filterMap] at hp
  obtain ⟨t, ht, hf⟩ := hp
  simp only at hf
  by_cases h : preprocessText t = []
  · rw [if_pos h] at hf
    exact Option.noConfusion hf
  · rw [if_neg h] at hf
    have heq := Option.some.inj hf
    exact ⟨t, ht, heq, heq ▸ h⟩

/-- **C7** (counterexample): the input `"éé"` normalizes to itself,
two CHARACTERS long — so by the claim's criterion ("shorter than 3
characters after normalization") it is invalid and must never reach the
provider.  But Go's `len` counts its four UTF-8 BYTES, so the code
keeps it: it appears verbatim in the network payload, the call is made,
and no all-inputs-invalid error is raised. -/
theorem c7_counterexample :
    (normalizeWS (gs "éé")).length < 3 ∧
    OpenAIEmbedder.sentPayloads 2 netOk [gs "éé"] = [[gs "éé"]] ∧
    (match OpenAIEmbedder.EmbedBatch 2 netOk [gs "éé"] with
     | .ok _ => true
     | .error _ => false) = true := by decide

/-- **C7** (amended, with the length threshold read as Go's `len`: 3
UTF-8 BYTES rather than 3 characters): an input that preprocessing
rejects — empty, whitespace-only, or shorter than 3 bytes after
normalization, i.e. `preprocessText s = []` — never occurs in any
payload submitted to the network; and when every input of a non-empty
batch is rejected, `EmbedBatch` fails with the all-inputs-invalid
error and no payload is submitted at all. -/
theorem c7_rejected_inputs_never_sent (maxRetries : Nat)
    (net : Nat → List GoString → Except GoErr (List Vec))
    (inputs : List GoString) :
    (∀ s, preprocessText s = [] →
      ∀ payload ∈ OpenAIEmbedder.sentPayloads maxRetries net inputs,
        s ∉ payload) ∧
    (inputs ≠ [] → (∀ s ∈ inputs, preprocessText s = []) →
      OpenAIEmbedder.EmbedBatch maxRetries net inputs =
        .error (.msg "no valid inputs after preprocessing") ∧
      OpenAIEmbedder.sentPayloads maxRetries net inputs = []) := by
  constructor
  · intro s hs payload hpay hmem
    unfold OpenAIEmbedder.sentPayloads at hpay
    by_cases hemp : inputs = []
    · rw [if_pos hemp] at hpay
      exact absurd hpay (List.not_mem_nil payload)
    · rw [if_neg hemp] at hpay
      simp only at hpay
      by_cases hproc : OpenAIEmbedder.processedInputs inputs = []
      · rw [if_pos hproc] at hpay
        exact absurd hpay (List.not_mem_nil payload)
      · rw [if_neg hproc] at hpay
        have hchunk := sentChunks_subset maxRetries net _ payload hpay
        have hsin : s ∈ OpenAIEmbedder.processedInputs inputs :=
          chunksOf_mem_mem 10 (by omega) _ payload hchunk s hmem
        obtain ⟨t, _, hts, hsne⟩ := mem_processedInputs inputs s hsin
        have hfix : preprocessText s = s := by
          have h1 : preprocessText t ≠ [] := by rw [hts]; exact hsne
          have h2 := preprocessText_idem t h1
          rw [hts] at h2
          exact h2
        rw [hfix] at hs
        exact hsne hs
  · intro hne hall
    have hp1 : inputs.filterMap (fun t =>
        let p := preprocessText t
        if p = [] then none else some p) = [] := by
      apply List.filterMap_eq_nil_iff.mpr
      intro t ht
      simp [hall t ht]
    have hp2 : OpenAIEmbedder.processedInputs inputs = [] := hp1
    constructor
    · unfold OpenAIEmbedder.EmbedBatch
      rw [if_neg hne]
      simp only
      rw [if_pos hp1]
    · unfold OpenAIEmbedder.sentPayloads
      rw [if_neg hne]
      simp only
      rw [if_pos hp2]

/-- Witness for the amended C7: the rejected input `" x "` is not in
the one payload of the valid batch `["hello"]`, and the all-rejected
batch `[" x "]` fails with no payload sent. -/
theorem c7_witness :
    (gs " x " ∉ ([gs "hello"] : List GoString)) ∧
    (OpenAIEmbedder.EmbedBatch 2 netOk [gs " x "] =
      .error (.msg "no valid inputs after preprocessing") ∧
     OpenAIEmbedder.sentPayloads 2 netOk [gs " x "] = []) :=
  ⟨(c7_rejected_inputs_never_sent 2 netOk [gs "hello"]).1 (gs " x ")
     (by decide) [gs "hello"] (by decide),
   (c7_rejected_inputs_never_sent 2 netOk [gs " x "]).2
     (by decide) (by decide)⟩

end RV
